import Mathlib

/-!
Verification development for the EVB trajectory-analysis scripts
(`forward_hop.py`, `civec_pdf.py`, `hendersonhasselbalch.py`).

The Python functions are shallowly embedded: pure numeric code over
floats is modelled over `ℚ`, reaction-center identifiers over `ℤ`,
Python's `None` sentinel in `second_largest` over `Option ℚ` (Python 2
orders `None` below every number), and failing computations return
`Option`/`none`.
-/

/-! ## Hop classifier (`forward_hop.py`, `eval_hop_function`) -/

/-- One iteration of the classification branch in `eval_hop_function`:
given `pcenter = rxncenter[i-1]`, `ccenter = rxncenter[i]` and the donor
stack `pdonor`, return `(val, updated pdonor)`.  The Python list `pdonor`
is kept top-first here: `pdonor.append(x)` becomes `x :: pdonor` and
`pdonor[-1]` becomes `List.headI`. -/
def hopStep (pcenter ccenter : ℤ) (pdonor : List ℤ) : ℤ × List ℤ :=
  if pcenter = ccenter then (0, pdonor)
  else if ccenter = pdonor.headI then (-1, pdonor)
  else (1, pcenter :: pdonor)

/-- The loop body of `eval_hop_function`: `prev` carries
`rxncenter[i-1]`, `centers` the remaining frames, `h` the last appended
value `hts[i-1]`, `pdonor` the donor stack.  Produces the appended tail
of `hts`. -/
def hopSteps (prev : ℤ) (centers : List ℤ) (h : ℤ) (pdonor : List ℤ) : List ℤ :=
  match centers with
  | [] => []
  | c :: rest =>
      let vs := hopStep prev c pdonor
      (h + vs.1) :: hopSteps c rest (h + vs.1) vs.2

/-- `eval_hop_function` from `forward_hop.py`: `hts` starts as `[0]`
(h(0) = 0), the donor stack as the one-element sentinel stack `[0]`, and
the loop runs over frames `1..T-1`. -/
def eval_hop_function (rxncenter : List ℤ) : List ℤ :=
  0 :: hopSteps rxncenter.headI (rxncenter.drop 1) 0 [0]

/-- The hop-classifier transition system exactly as the specification
words it, indexed by frame: state after frame `t` is
`(h[t], donor_history)`, starting from `(0, [sentinel])`; at frame `t+1`
with `prev = center[t]` and `curr = center[t+1]`: equal centers keep the
state, `curr` equal to the stack top decrements `h`, and otherwise `h`
increments and `prev` is pushed. -/
def hopSpecState (c : List ℤ) : ℕ → ℤ × List ℤ
  | 0 => (0, [0])
  | t + 1 =>
      if c.getD (t + 1) 0 = c.getD t 0 then hopSpecState c t
      else if c.getD (t + 1) 0 = (hopSpecState c t).2.headI then
        ((hopSpecState c t).1 - 1, (hopSpecState c t).2)
      else ((hopSpecState c t).1 + 1, c.getD t 0 :: (hopSpecState c t).2)

/-! ## Amplitude extractor (`civec_pdf.py`, `second_largest` and the
CI-vector loop in `main`) -/

/-- Python 2 comparison `x >= m` where `m` may be `None`: `None` orders
below every number, so the comparison holds vacuously for `none`. -/
def optLE (o : Option ℚ) (x : ℚ) : Prop :=
  match o with
  | none => True
  | some m => m ≤ x

instance (o : Option ℚ) (x : ℚ) : Decidable (optLE o x) :=
  match o with
  | none => isTrue trivial
  | some m => inferInstanceAs (Decidable (m ≤ x))

/-- Python 2 comparison `x > m` where `m` may be `None`. -/
def optLT (o : Option ℚ) (x : ℚ) : Prop :=
  match o with
  | none => True
  | some m => m < x

instance (o : Option ℚ) (x : ℚ) : Decidable (optLT o x) :=
  match o with
  | none => isTrue trivial
  | some m => inferInstanceAs (Decidable (m < x))

/-- The scan loop of `second_largest`: `m1` is the largest seen so far,
`m2` the second largest, both `none` ("unset") initially. -/
def second_largest_aux : List ℚ → Option ℚ → Option ℚ → Option ℚ
  | [], _, m2 => m2
  | x :: xs, m1, m2 =>
      if optLE m1 x then second_largest_aux xs (some x) m1
      else if optLT m2 x then second_largest_aux xs m1 (some x)
      else second_largest_aux xs m1 m2

/-- `second_largest` from `civec_pdf.py`; returns `none` exactly when
`m2` is still unset (Python would return `None`). -/
def second_largest (numbers : List ℚ) : Option ℚ :=
  second_largest_aux numbers none none

/-- Python's built-in `max` over a list: errors (`none`) on the empty
list, otherwise folds `max` over the elements. -/
def pymax : List ℚ → Option ℚ
  | [] => none
  | x :: xs => some (xs.foldl max x)

/-- One iteration of the CI-vector loop in `civec_pdf.main`:
`l = max(i)`, `l2 = second_largest(i)`, store the squares.  Squaring an
unset (`None`) value is a runtime failure, modelled as `none`. -/
def extract_frame (amps : List ℚ) : Option (ℚ × ℚ) :=
  match pymax amps, second_largest amps with
  | some l, some l2 => some (l * l, l2 * l2)
  | _, _ => none

/-- The whole CI-vector loop of `civec_pdf.main`: builds the aligned
`first[]` (dominant squared) and `second[]` (secondary squared) sample
sequences; any failing frame aborts the run with no partial output. -/
def extract_samples (frames : List (List ℚ)) : Option (List ℚ × List ℚ) :=
  match frames with
  | [] => some ([], [])
  | f :: rest =>
      match extract_frame f, extract_samples rest with
      | some ds, some rests => some (ds.1 :: rests.1, ds.2 :: rests.2)
      | _, _ => none

/-- `m` is the largest entry of `l`. -/
def isLargest (l : List ℚ) (m : ℚ) : Prop :=
  m ∈ l ∧ ∀ y ∈ l, y ≤ m

/-- `m` is the second-largest entry of `l` (position 1 in a descending
sort, duplicates counted): some reordering of `l` is `m1 :: m :: rest`
with `m ≤ m1` and every element of `rest` at most `m`. -/
def isSecondLargest (l : List ℚ) (m : ℚ) : Prop :=
  ∃ m1 rest, l.Perm (m1 :: m :: rest) ∧ m ≤ m1 ∧ ∀ y ∈ rest, y ≤ m

/-! ## Free-energy profiler (`civec_pdf.py`, `main`, `-f`/`-fd` modes) -/

/-- Boltzmann constant in J/K, as in `civec_pdf.main`. -/
def kb : ℚ := 1.3806488e-23

/-- Boltzmann constant converted to kcal/mol per K
(`kb / 6.9477e-21`), as in `civec_pdf.main`. -/
def kb_kcal : ℚ := kb / 6.9477e-21

/-- `numpy.linspace a b n`: `n` evenly spaced points from `a` to `b`
inclusive. -/
def linspace (a b : ℚ) (n : ℕ) : List ℚ :=
  (List.range n).map (fun (j : ℕ) => a + (b - a) * (j : ℚ) / ((n : ℚ) - 1))

/-- Pre-shift free energy in single-coordinate mode (`-f`): for each of
`nbins` grid points over `[0,1]`, `-kb_kcal*300*log(pdf1(i))` with
`pdf1 = fit(first)`.  `ln` stands for `numpy.log` and `fit` for
`gaussian_kde`, both external. -/
def fe_single_raw (ln : ℚ → ℚ) (fit : List ℚ → ℚ → ℚ) (first : List ℚ)
    (nbins : ℕ) : List ℚ :=
  (linspace 0 1 nbins).map (fun i => -kb_kcal * 300 * ln (fit first i))

/-- Pre-shift free energy in difference mode (`-fd`): `2*nbins` grid
points over `[-1,1]`; below `-0.04` use `pdf4 = fit(second - first)`,
above `0.04` use `pdf3 = fit(first - second)`, else `0.0`. -/
def fe_diff_raw (ln : ℚ → ℚ) (fit : List ℚ → ℚ → ℚ) (first second : List ℚ)
    (nbins : ℕ) : List ℚ :=
  (linspace (-1) 1 (2 * nbins)).map (fun i =>
    if i < -0.04 then -kb_kcal * 300 * ln (fit (List.zipWith (· - ·) second first) i)
    else if i > 0.04 then -kb_kcal * 300 * ln (fit (List.zipWith (· - ·) first second) i)
    else 0)

/-- Python's built-in `min` over a nonempty list (0 on `[]`, where
Python would raise). -/
def pymin : List ℚ → ℚ
  | [] => 0
  | x :: xs => xs.foldl min x

/-- The zero-point shift `free_energy += -minfe` of `civec_pdf.main`. -/
def shift_min (l : List ℚ) : List ℚ :=
  l.map (fun e => e + -(pymin l))

/-- Full single-coordinate (`-f`) free-energy profile, post shift. -/
def free_energy_profile_fe (ln : ℚ → ℚ) (fit : List ℚ → ℚ → ℚ)
    (first : List ℚ) (nbins : ℕ) : List ℚ :=
  shift_min (fe_single_raw ln fit first nbins)

/-- Full difference-mode (`-fd`) free-energy profile, post shift. -/
def free_energy_profile_fed (ln : ℚ → ℚ) (fit : List ℚ → ℚ → ℚ)
    (first second : List ℚ) (nbins : ℕ) : List ℚ :=
  shift_min (fe_diff_raw ln fit first second nbins)

/-! ## Henderson-Hasselbalch fractions (`hendersonhasselbalch.py`) -/

/-- H2CO3 fraction: `h3o*h3o / (h3o*h3o + h3o*ka1 + ka1*ka2)`. -/
def h2co3_fraction (h3o ka1 ka2 : ℚ) : ℚ :=
  h3o * h3o / (h3o * h3o + h3o * ka1 + ka1 * ka2)

/-- HCO3 fraction: `h3o*ka1 / (h3o*h3o + h3o*ka1 + ka1*ka2)`. -/
def hco3_fraction (h3o ka1 ka2 : ℚ) : ℚ :=
  h3o * ka1 / (h3o * h3o + h3o * ka1 + ka1 * ka2)

/-- CO3 fraction: `ka1*ka2 / (h3o*h3o + h3o*ka1 + ka1*ka2)`. -/
def co3_fraction (h3o ka1 ka2 : ℚ) : ℚ :=
  ka1 * ka2 / (h3o * h3o + h3o * ka1 + ka1 * ka2)

/-! ## Hop-classifier lemmas -/

lemma drop_getD_cons (c : List ℤ) (j : ℕ) (h : j < c.length) :
    c.drop j = c.getD j 0 :: c.drop (j + 1) := by
  rw [List.drop_eq_getElem_cons h, List.getD_eq_getElem _ _ h]

/-- One step of the spec transition system agrees with one `hopStep` of
the code: the spec state at `j+1` is the code's branch applied to the
spec state at `j`. -/
lemma hopSpecState_succ (c : List ℤ) (j : ℕ) :
    hopSpecState c (j + 1) =
      ((hopSpecState c j).1 +
         (hopStep (c.getD j 0) (c.getD (j + 1) 0) (hopSpecState c j).2).1,
       (hopStep (c.getD j 0) (c.getD (j + 1) 0) (hopSpecState c j).2).2) := by
  simp only [hopSpecState, hopStep]
  by_cases h1 : c.getD (j + 1) 0 = c.getD j 0
  · rw [if_pos h1, if_pos h1.symm]
    simp
  · rw [if_neg h1,
      if_neg (show ¬c.getD j 0 = c.getD (j + 1) 0 from fun h => h1 h.symm)]
    by_cases h2 : c.getD (j + 1) 0 = (hopSpecState c j).2.headI
    · rw [if_pos h2, if_pos h2]
      simp [sub_eq_add_neg]
    · rw [if_neg h2, if_neg h2]

/-- The tail of the code's output from frame `j+1` on is the spec trace
from frame `j+1` on, given the code starts in the spec state at `j`. -/
lemma hopSteps_spec (c : List ℤ) :
    ∀ n j, j + 1 + n = c.length →
    hopSteps (c.getD j 0) (c.drop (j + 1)) (hopSpecState c j).1 (hopSpecState c j).2 =
      (List.range' (j + 1) n).map (fun t => (hopSpecState c t).1) := by
  intro n
  induction n with
  | zero =>
      intro j hj
      have hd : c.drop (j + 1) = [] := by
        have h : j + 1 = c.length := by omega
        rw [h, List.drop_length]
      simp [hd, hopSteps]
  | succ n ih =>
      intro j hj
      have hj1 : j + 1 < c.length := by omega
      rw [drop_getD_cons c (j + 1) hj1]
      rw [hopSteps]
      have hst := hopSpecState_succ c j
      have hfst : (hopSpecState c (j + 1)).1 =
          (hopSpecState c j).1 +
            (hopStep (c.getD j 0) (c.getD (j + 1) 0) (hopSpecState c j).2).1 := by
        rw [hst]
      have hsnd : (hopSpecState c (j + 1)).2 =
          (hopStep (c.getD j 0) (c.getD (j + 1) 0) (hopSpecState c j).2).2 := by
        rw [hst]
      have htail := ih (j + 1) (by omega)
      rw [hfst.symm, hsnd.symm] at *
      rw [htail]
      rfl

/-- C1: for every center sequence of length `T >= 1`, `eval_hop_function`
returns exactly the trace of the specified transition system: `h[0] = 0`
and for each `t` in `1..T-1` with `prev = center[t-1]`, `curr = center[t]`,
equal centers repeat `h[t-1]`, a return to the donor-stack top gives
`h[t-1] - 1` with the stack unchanged, and anything else gives
`h[t-1] + 1` with `prev` pushed; the stack starts as the one-element
sentinel stack. -/
theorem hop_classifier_refines_spec (c : List ℤ) (hc : 1 ≤ c.length) :
    eval_hop_function c = (List.range c.length).map (fun t => (hopSpecState c t).1) := by
  match c with
  | x :: rest =>
    have hspec := hopSteps_spec (x :: rest) rest.length 0 (by simp [add_comm])
    have hrange : List.range (x :: rest).length =
        0 :: List.range' 1 rest.length := by
      rw [List.range_eq_range']
      rfl
    rw [hrange, List.map_cons]
    exact congrArg₂ List.cons rfl hspec

/-- Witness for C1 at the spec's oscillation test `[1,1,2,2,1]`. -/
theorem hop_classifier_refines_spec_witness :
    eval_hop_function [1, 1, 2, 2, 1] =
      (List.range ([1, 1, 2, 2, 1] : List ℤ).length).map
        (fun t => (hopSpecState [1, 1, 2, 2, 1] t).1) ∧
    eval_hop_function [1, 1, 2, 2, 1] = [0, 0, 1, 1, 0] :=
  ⟨hop_classifier_refines_spec [1, 1, 2, 2, 1] (by decide), by decide⟩

lemma hopStep_val (p c : ℤ) (s : List ℤ) :
    (hopStep p c s).1 = -1 ∨ (hopStep p c s).1 = 0 ∨ (hopStep p c s).1 = 1 := by
  unfold hopStep
  split_ifs <;> simp

lemma chain'_hopSteps (centers : List ℤ) :
    ∀ prev h s, List.Chain' (fun a b => b - a = -1 ∨ b - a = 0 ∨ b - a = 1)
      (h :: hopSteps prev centers h s) := by
  induction centers with
  | nil =>
      intro prev h s
      simp [hopSteps]
  | cons c rest ih =>
      intro prev h s
      simp only [hopSteps]
      rw [List.chain'_cons]
      refine ⟨?_, ih c (h + (hopStep prev c s).1) (hopStep prev c s).2⟩
      rcases hopStep_val prev c s with h1 | h1 | h1 <;> rw [h1] <;> omega

lemma hopSteps_replicate (x : ℤ) : ∀ (n : ℕ) (h : ℤ) (s : List ℤ),
    hopSteps x (List.replicate n x) h s = List.replicate n h := by
  intro n
  induction n with
  | zero =>
      intro h s
      rfl
  | succ n ih =>
      intro h s
      rw [List.replicate_succ]
      simp only [hopSteps, hopStep, if_pos rfl]
      rw [List.replicate_succ]
      simp [ih]

/-- C9: for every nonempty center sequence the hop-count output has
`h[0] = 0` and consecutive differences in `{-1, 0, 1}`, and a
constant-center trajectory yields the all-zero output. -/
theorem hop_counts_invariants (c : List ℤ) (_hc : c ≠ []) :
    (eval_hop_function c).getD 0 0 = 0 ∧
    (∀ t, 1 ≤ t → t < (eval_hop_function c).length →
      (eval_hop_function c).getD t 0 - (eval_hop_function c).getD (t - 1) 0 = -1 ∨
      (eval_hop_function c).getD t 0 - (eval_hop_function c).getD (t - 1) 0 = 0 ∨
      (eval_hop_function c).getD t 0 - (eval_hop_function c).getD (t - 1) 0 = 1) ∧
    (∀ x : ℤ, ∀ n : ℕ, 1 ≤ n →
      eval_hop_function (List.replicate n x) = List.replicate n 0) := by
  refine ⟨rfl, ?_, ?_⟩
  · intro t ht1 ht2
    obtain ⟨i, rfl⟩ : ∃ i, t = i + 1 := ⟨t - 1, by omega⟩
    have hchain := chain'_hopSteps (c.drop 1) c.headI 0 [0]
    rw [List.chain'_iff_get] at hchain
    have hlt : i < (eval_hop_function c).length - 1 := by omega
    have hstep := hchain i hlt
    have hi : i + 1 - 1 = i := by omega
    rw [hi, List.getD_eq_getElem _ _ ht2,
      List.getD_eq_getElem _ _ (by omega : i < (eval_hop_function c).length)]
    simpa [eval_hop_function, List.get_eq_getElem] using hstep
  · intro x n hn
    match n, hn with
    | m + 1, _ =>
      show (0 : ℤ) :: hopSteps (List.replicate (m + 1) x).headI
          ((List.replicate (m + 1) x).drop 1) 0 [0] = _
      rw [List.replicate_succ, List.replicate_succ]
      simp only [List.headI, List.drop_succ_cons, List.drop_zero]
      rw [hopSteps_replicate]

/-- Witness for C9 at the spec's constant-center test `[5,5,5,5]`. -/
theorem hop_counts_invariants_witness :
    (eval_hop_function [5, 5, 5, 5]).getD 0 0 = 0 ∧
    ((eval_hop_function [5, 5, 5, 5]).getD 1 0 -
        (eval_hop_function [5, 5, 5, 5]).getD 0 0 = -1 ∨
     (eval_hop_function [5, 5, 5, 5]).getD 1 0 -
        (eval_hop_function [5, 5, 5, 5]).getD 0 0 = 0 ∨
     (eval_hop_function [5, 5, 5, 5]).getD 1 0 -
        (eval_hop_function [5, 5, 5, 5]).getD 0 0 = 1) ∧
    eval_hop_function (List.replicate 4 (5 : ℤ)) = List.replicate 4 0 :=
  ⟨(hop_counts_invariants [5, 5, 5, 5] (by decide)).1,
   (hop_counts_invariants [5, 5, 5, 5] (by decide)).2.1 1 (by decide) (by decide),
   (hop_counts_invariants [5, 5, 5, 5] (by decide)).2.2 5 4 (by decide)⟩

/-- C6: the backward check compares the current center only against the
top of the donor stack: a transition whose current center differs from
the previous center and from the stack top is a forward hop (`val = 1`,
previous center pushed) even when the current center equals a deeper
stack element; concretely, centers `[1,2,3,1]` give `h = [0,1,2,3]`. -/
theorem backward_check_top_only :
    (∀ (prev curr : ℤ) (s : List ℤ), curr ≠ prev → curr ≠ s.headI →
      curr ∈ s.tail → hopStep prev curr s = (1, prev :: s)) ∧
    eval_hop_function [1, 2, 3, 1] = [0, 1, 2, 3] := by
  constructor
  · intro prev curr s hne htop _
    unfold hopStep
    rw [if_neg (fun h => hne h.symm), if_neg htop]
  · decide

/-- Witness for C6: on stack `[2,1,0]` a hop from center `3` to center
`1` (which sits below the top) is still classified forward. -/
theorem backward_check_top_only_witness :
    hopStep 3 1 [2, 1, 0] = (1, 3 :: [2, 1, 0]) :=
  backward_check_top_only.1 3 1 [2, 1, 0] (by decide) (by decide) (by decide)

/-- C7 counterexample: the sentinel donor id is the literal `0`, which a
real center can equal.  On centers `[1, 0]` the first transition changes
center, yet it is classified backward (`h = [0, -1]`), not forward. -/
theorem sentinel_can_match_center_cex :
    eval_hop_function [1, 0] = [0, -1] ∧
    (eval_hop_function [1, 0]).getD 1 0 ≠ (eval_hop_function [1, 0]).getD 0 0 + 1 := by
  decide

lemma hopSteps_const_then_hop (a b : ℤ) (rest : List ℤ)
    (hab : a ≠ b) (hb0 : b ≠ 0) :
    ∀ m : ℕ, hopSteps a (List.replicate m a ++ b :: rest) 0 [0] =
      List.replicate m 0 ++ 1 :: hopSteps b rest 1 [a, 0] := by
  intro m
  induction m with
  | zero =>
      simp only [List.replicate, List.nil_append, hopSteps, hopStep]
      rw [if_neg hab, if_neg (show b ≠ List.headI [0] from hb0)]
      simp
  | succ m ih =>
      rw [List.replicate_succ, List.cons_append]
      simp only [hopSteps, hopStep, if_pos rfl]
      rw [List.replicate_succ, List.cons_append]
      simp [ih]

/-- C7 amended: the sentinel donor id is `0` and can collide with a real
center; for every center sequence whose first center change moves to a
nonzero center, that first transition is a forward hop (`h` goes from
`0` to `1`). -/
theorem first_hop_forward_amended (a b : ℤ) (k : ℕ) (rest : List ℤ)
    (hk : 1 ≤ k) (hab : a ≠ b) (hb0 : b ≠ 0) :
    (eval_hop_function (List.replicate k a ++ b :: rest)).getD (k - 1) 0 = 0 ∧
    (eval_hop_function (List.replicate k a ++ b :: rest)).getD k 0 = 1 := by
  match k, hk with
  | m + 1, _ =>
    have heval : eval_hop_function (List.replicate (m + 1) a ++ b :: rest) =
        List.replicate (m + 1) 0 ++ 1 :: hopSteps b rest 1 [a, 0] := by
      rw [List.replicate_succ, List.cons_append]
      show (0 : ℤ) :: hopSteps a (List.replicate m a ++ b :: rest) 0 [0] = _
      rw [hopSteps_const_then_hop a b rest hab hb0 m, List.replicate_succ,
        List.cons_append]
    rw [heval]
    constructor
    · have hm : m + 1 - 1 = m := by omega
      rw [hm, List.getD_append _ _ _ m (by simp),
        List.getD_eq_getElem _ _ (by simp), List.getElem_replicate]
    · rw [List.getD_append_right _ _ _ _ (by simp)]
      simp

/-- Witness for C7's amended statement: centers `[5,5,7]`. -/
theorem first_hop_forward_amended_witness :
    (eval_hop_function (List.replicate 2 (5 : ℤ) ++ 7 :: [])).getD 1 0 = 0 ∧
    (eval_hop_function (List.replicate 2 (5 : ℤ) ++ 7 :: [])).getD 2 0 = 1 :=
  first_hop_forward_amended 5 7 2 [] (by decide) (by decide) (by decide)

/-- C10: with `h3o = 10^(-pH)` positive and `ka1, ka2` positive, the
three species fractions computed by `hendersonhasselbalch.main` sum
exactly to `1` in exact rational arithmetic. -/
theorem hh_fractions_sum_one (h3o ka1 ka2 : ℚ)
    (h1 : 0 < h3o) (h2 : 0 < ka1) (h3 : 0 < ka2) :
    h2co3_fraction h3o ka1 ka2 + hco3_fraction h3o ka1 ka2 +
      co3_fraction h3o ka1 ka2 = 1 := by
  have hden : h3o * h3o + h3o * ka1 + ka1 * ka2 ≠ 0 := by positivity
  unfold h2co3_fraction hco3_fraction co3_fraction
  field_simp

/-- Witness for C10 at `h3o = 1/10` (pH 1), the script's `ka1, ka2`. -/
theorem hh_fractions_sum_one_witness :
    h2co3_fraction (1/10) (3.54e-4) (4.69e-11) +
      hco3_fraction (1/10) (3.54e-4) (4.69e-11) +
      co3_fraction (1/10) (3.54e-4) (4.69e-11) = 1 :=
  hh_fractions_sum_one (1/10) (3.54e-4) (4.69e-11)
    (by norm_num) (by norm_num) (by norm_num)

/-! ## Free-energy lemmas -/

lemma getD_map_of_lt {α β : Type} (f : α → β) (l : List α) {j : ℕ} (d : β) (d' : α)
    (h : j < l.length) : (l.map f).getD j d = f (l.getD j d') := by
  rw [List.getD_eq_getElem _ _ (by simpa using h), List.getD_eq_getElem _ _ h,
    List.getElem_map]

lemma linspace_getD (a b : ℚ) (n : ℕ) {j : ℕ} (h : j < n) :
    (linspace a b n).getD j 0 = a + (b - a) * (j : ℚ) / ((n : ℚ) - 1) := by
  unfold linspace
  rw [getD_map_of_lt _ _ 0 0 (by simpa using h),
    List.getD_eq_getElem _ _ (by simpa using h), List.getElem_range]

/-- C2: difference mode computes on `2*nbins` evenly spaced grid points
over `[-1,1]`; at a grid point below `-0.04` the energy is `-k*T*ln` of
the density fitted from the negated differences (`second - first`
samples), above `0.04` it is `-k*T*ln` of the density fitted from the
direct differences (`first - second` samples), and on `[-0.04, 0.04]`
the pre-shift energy is exactly `0`. -/
theorem fed_grid_branches_deadzone (ln : ℚ → ℚ) (fit : List ℚ → ℚ → ℚ)
    (first second : List ℚ) (nbins : ℕ) :
    (fe_diff_raw ln fit first second nbins).length = 2 * nbins ∧
    ∀ j, j < 2 * nbins → ∀ x : ℚ, x = -1 + 2 * (j : ℚ) / ((2 * nbins : ℚ) - 1) →
      ((x < -0.04 → (fe_diff_raw ln fit first second nbins).getD j 0 =
          -kb_kcal * 300 * ln (fit (List.zipWith (· - ·) second first) x)) ∧
       (0.04 < x → (fe_diff_raw ln fit first second nbins).getD j 0 =
          -kb_kcal * 300 * ln (fit (List.zipWith (· - ·) first second) x)) ∧
       (-0.04 ≤ x → x ≤ 0.04 →
          (fe_diff_raw ln fit first second nbins).getD j 0 = 0)) := by
  constructor
  · simp [fe_diff_raw, linspace]
  · intro j hj x hx
    have hxg : (linspace (-1) 1 (2 * nbins)).getD j 0 = x := by
      rw [linspace_getD _ _ _ hj, hx]
      push_cast
      ring
    have hget : (fe_diff_raw ln fit first second nbins).getD j 0 =
        if x < -0.04 then -kb_kcal * 300 * ln (fit (List.zipWith (· - ·) second first) x)
        else if x > 0.04 then -kb_kcal * 300 * ln (fit (List.zipWith (· - ·) first second) x)
        else 0 := by
      unfold fe_diff_raw
      rw [getD_map_of_lt _ _ 0 0 (by simpa [linspace] using hj), hxg]
    refine ⟨?_, ?_, ?_⟩
    · intro hlt
      rw [hget, if_pos hlt]
    · intro hgt
      have hnum : (-0.04 : ℚ) < 0.04 := by norm_num
      rw [hget, if_neg (by linarith), if_pos hgt]
    · intro hge hle
      rw [hget, if_neg (by linarith), if_neg (by simpa using hle)]

/-- Witness for C2: one bin, identity log, identity density; the first
grid point is `-1 < -0.04` and picks the negated-difference density. -/
theorem fed_grid_branches_deadzone_witness :
    (fe_diff_raw id (fun _ x => x) ([] : List ℚ) [] 1).length = 2 * 1 ∧
    (fe_diff_raw id (fun _ x => x) ([] : List ℚ) [] 1).getD 0 0 =
      -kb_kcal * 300 * id ((fun _ x => x) (List.zipWith (· - ·) ([] : List ℚ) []) (-1)) :=
  ⟨(fed_grid_branches_deadzone id (fun _ x => x) [] [] 1).1,
   ((fed_grid_branches_deadzone id (fun _ x => x) [] [] 1).2 0 (by norm_num) (-1)
      (by norm_num)).1 (by norm_num)⟩

lemma foldl_min_map_add (c : ℚ) : ∀ (xs : List ℚ) (x : ℚ),
    (xs.map (fun e => e + c)).foldl min (x + c) = xs.foldl min x + c := by
  intro xs
  induction xs with
  | nil =>
      intro x
      rfl
  | cons y ys ih =>
      intro x
      simp only [List.map_cons, List.foldl_cons]
      rw [min_add_add_right, ih]

lemma pymin_shift_min (l : List ℚ) (hl : l ≠ []) : pymin (shift_min l) = 0 := by
  match l with
  | x :: xs =>
    show pymin ((x :: xs).map (fun e => e + -(pymin (x :: xs)))) = 0
    simp only [List.map_cons]
    show (xs.map (fun e => e + -(pymin (x :: xs)))).foldl min
        (x + -(pymin (x :: xs))) = 0
    rw [foldl_min_map_add]
    exact add_neg_cancel _

lemma shift_min_getD (l : List ℚ) {i : ℕ} (hi : i < l.length) :
    (shift_min l).getD i 0 = l.getD i 0 + -(pymin l) := by
  unfold shift_min
  rw [getD_map_of_lt _ _ 0 0 hi]

/-- C8: in both free-energy modes, subtracting `min(energy)` makes the
profile's minimum exactly `0`, and the shift preserves every pairwise
energy difference against the pre-shift energies. -/
theorem profile_min_zero_and_differences (ln : ℚ → ℚ) (fit : List ℚ → ℚ → ℚ)
    (first second : List ℚ) (nbins : ℕ) (hn : 1 ≤ nbins) :
    pymin (free_energy_profile_fe ln fit first nbins) = 0 ∧
    pymin (free_energy_profile_fed ln fit first second nbins) = 0 ∧
    (∀ i j, i < nbins → j < nbins →
      (free_energy_profile_fe ln fit first nbins).getD i 0 -
        (free_energy_profile_fe ln fit first nbins).getD j 0 =
      (fe_single_raw ln fit first nbins).getD i 0 -
        (fe_single_raw ln fit first nbins).getD j 0) ∧
    (∀ i j, i < 2 * nbins → j < 2 * nbins →
      (free_energy_profile_fed ln fit first second nbins).getD i 0 -
        (free_energy_profile_fed ln fit first second nbins).getD j 0 =
      (fe_diff_raw ln fit first second nbins).getD i 0 -
        (fe_diff_raw ln fit first second nbins).getD j 0) := by
  have hlen1 : (fe_single_raw ln fit first nbins).length = nbins := by
    simp [fe_single_raw, linspace]
  have hlen2 : (fe_diff_raw ln fit first second nbins).length = 2 * nbins := by
    simp [fe_diff_raw, linspace]
  refine ⟨?_, ?_, ?_, ?_⟩
  · refine pymin_shift_min _ (fun h => ?_)
    rw [h] at hlen1
    simp at hlen1
    omega
  · refine pymin_shift_min _ (fun h => ?_)
    rw [h] at hlen2
    simp at hlen2
    omega
  · intro i j hi hj
    simp only [free_energy_profile_fe]
    rw [shift_min_getD _ (by rw [hlen1]; exact hi),
      shift_min_getD _ (by rw [hlen1]; exact hj)]
    ring
  · intro i j hi hj
    simp only [free_energy_profile_fed]
    rw [shift_min_getD _ (by rw [hlen2]; exact hi),
      shift_min_getD _ (by rw [hlen2]; exact hj)]
    ring

/-- Witness for C8 with one bin, zero log and identity density. -/
theorem profile_min_zero_and_differences_witness :
    pymin (free_energy_profile_fe (fun _ => (0 : ℚ)) (fun _ x => x) [] 1) = 0 ∧
    pymin (free_energy_profile_fed (fun _ => (0 : ℚ)) (fun _ x => x) [] [] 1) = 0 ∧
    ((free_energy_profile_fe (fun _ => (0 : ℚ)) (fun _ x => x) [] 1).getD 0 0 -
       (free_energy_profile_fe (fun _ => (0 : ℚ)) (fun _ x => x) [] 1).getD 0 0 =
     (fe_single_raw (fun _ => (0 : ℚ)) (fun _ x => x) [] 1).getD 0 0 -
       (fe_single_raw (fun _ => (0 : ℚ)) (fun _ x => x) [] 1).getD 0 0) ∧
    ((free_energy_profile_fed (fun _ => (0 : ℚ)) (fun _ x => x) [] [] 1).getD 0 0 -
       (free_energy_profile_fed (fun _ => (0 : ℚ)) (fun _ x => x) [] [] 1).getD 0 0 =
     (fe_diff_raw (fun _ => (0 : ℚ)) (fun _ x => x) [] [] 1).getD 0 0 -
       (fe_diff_raw (fun _ => (0 : ℚ)) (fun _ x => x) [] [] 1).getD 0 0) :=
  ⟨(profile_min_zero_and_differences (fun _ => 0) (fun _ x => x) [] [] 1 le_rfl).1,
   (profile_min_zero_and_differences (fun _ => 0) (fun _ x => x) [] [] 1 le_rfl).2.1,
   (profile_min_zero_and_differences (fun _ => 0) (fun _ x => x) [] [] 1 le_rfl).2.2.1
     0 0 (by norm_num) (by norm_num),
   (profile_min_zero_and_differences (fun _ => 0) (fun _ x => x) [] [] 1 le_rfl).2.2.2
     0 0 (by norm_num) (by norm_num)⟩

/-- C4, code behavior at the failing input: with a fitted density that
evaluates to `0` everywhere (as a KDE tail can after underflow),
single-coordinate mode still applies the logarithm at every grid point
and returns a complete profile containing `-kb_kcal * 300 * ln 0`
(`numpy.log(0)` is `-inf`, so the Python profile holds `inf`); no
`DensityDomainError` path exists in the code. -/
theorem zero_density_profile_returned (ln : ℚ → ℚ) :
    fe_single_raw ln (fun _ _ => 0) [1/2] 2 =
      [-kb_kcal * 300 * ln 0, -kb_kcal * 300 * ln 0] := by
  unfold fe_single_raw linspace
  norm_num [List.range_succ]

/-! ## Amplitude-extractor lemmas -/

/-- Invariant of the `second_largest` scan: if `(some a, some b)` are the
top two of what was seen so far (with leftovers `rest` all at most `b`),
the scan returns the second-largest of the whole input. -/
lemma second_largest_aux_spec :
    ∀ (xs : List ℚ) (a b : ℚ) (rest : List ℚ),
    b ≤ a → (∀ y ∈ rest, y ≤ b) →
    ∃ a' c rest',
      second_largest_aux xs (some a) (some b) = some c ∧
      (xs ++ a :: b :: rest).Perm (a' :: c :: rest') ∧
      c ≤ a' ∧ ∀ y ∈ rest', y ≤ c := by
  intro xs
  induction xs with
  | nil =>
      intro a b rest hba hrest
      exact ⟨a, b, rest, rfl, List.Perm.refl _, hba, hrest⟩
  | cons x xs ih =>
      intro a b rest hba hrest
      by_cases h1 : optLE (some a) x
      · have hax : a ≤ x := h1
        have step : second_largest_aux (x :: xs) (some a) (some b) =
            second_largest_aux xs (some x) (some a) := by
          simp only [second_largest_aux]
          rw [if_pos h1]
        obtain ⟨a', c, rest', heq, hperm, hc, hr⟩ :=
          ih x a (b :: rest) hax (by
            intro y hy
            rcases List.mem_cons.mp hy with rfl | hy'
            · exact hba
            · exact le_trans (hrest y hy') hba)
        exact ⟨a', c, rest', step.trans heq,
          (List.perm_middle.symm).trans hperm, hc, hr⟩
      · have hxa : x ≤ a := le_of_lt (not_le.mp h1)
        by_cases h2 : optLT (some b) x
        · have hbx : b < x := h2
          have step : second_largest_aux (x :: xs) (some a) (some b) =
              second_largest_aux xs (some a) (some x) := by
            simp only [second_largest_aux]
            rw [if_neg h1, if_pos h2]
          obtain ⟨a', c, rest', heq, hperm, hc, hr⟩ :=
            ih a x (b :: rest) hxa (by
              intro y hy
              rcases List.mem_cons.mp hy with rfl | hy'
              · exact le_of_lt hbx
              · exact le_trans (hrest y hy') (le_of_lt hbx))
          refine ⟨a', c, rest', step.trans heq, ?_, hc, hr⟩
          refine (List.perm_middle.symm).trans (List.Perm.trans ?_ hperm)
          exact List.Perm.append_left xs (List.Perm.swap a x (b :: rest))
        · have hxb : x ≤ b := not_lt.mp h2
          have step : second_largest_aux (x :: xs) (some a) (some b) =
              second_largest_aux xs (some a) (some b) := by
            simp only [second_largest_aux]
            rw [if_neg h1, if_neg h2]
          obtain ⟨a', c, rest', heq, hperm, hc, hr⟩ :=
            ih a b (x :: rest) hba (by
              intro y hy
              rcases List.mem_cons.mp hy with rfl | hy'
              · exact hxb
              · exact hrest y hy')
          refine ⟨a', c, rest', step.trans heq, ?_, hc, hr⟩
          refine (List.perm_middle.symm).trans (List.Perm.trans ?_ hperm)
          refine List.Perm.append_left xs ?_
          exact (List.Perm.swap a x (b :: rest)).trans
            (List.Perm.cons a (List.Perm.swap b x rest))

/-- On any list of length at least 2, `second_largest` returns a value
`c` that is the second-largest entry: the list reorders as
`a' :: c :: rest'` with `c ≤ a'` and `rest'` below `c`. -/
lemma second_largest_spec (x1 x2 : ℚ) (xs : List ℚ) :
    ∃ a' c rest',
      second_largest (x1 :: x2 :: xs) = some c ∧
      (x1 :: x2 :: xs).Perm (a' :: c :: rest') ∧
      c ≤ a' ∧ ∀ y ∈ rest', y ≤ c := by
  have e1 : (xs ++ [x1]).Perm (x1 :: xs) := List.perm_append_singleton x1 xs
  have e2 : (xs ++ [x2]).Perm (x2 :: xs) := List.perm_append_singleton x2 xs
  by_cases h12 : x1 ≤ x2
  · have h2 : second_largest (x1 :: x2 :: xs) =
        second_largest_aux xs (some x2) (some x1) := by
      show second_largest_aux (x2 :: xs) (some x1) none = _
      simp only [second_largest_aux]
      rw [if_pos (show optLE (some x1) x2 from h12)]
    obtain ⟨a', c, rest', heq, hperm, hc, hr⟩ :=
      second_largest_aux_spec xs x2 x1 [] h12 (by intro y hy; cases hy)
    have hmid : (xs ++ x2 :: x1 :: ([] : List ℚ)).Perm (x2 :: x1 :: xs) :=
      (@List.perm_middle ℚ x2 xs [x1]).trans (List.Perm.cons x2 e1)
    exact ⟨a', c, rest', h2.trans heq,
      ((List.Perm.swap x2 x1 xs).trans hmid.symm).trans hperm, hc, hr⟩
  · have hlt : x2 < x1 := not_le.mp h12
    have h2 : second_largest (x1 :: x2 :: xs) =
        second_largest_aux xs (some x1) (some x2) := by
      show second_largest_aux (x2 :: xs) (some x1) none = _
      simp only [second_largest_aux]
      rw [if_neg (show ¬optLE (some x1) x2 from h12), if_pos (show optLT none x2 from trivial)]
    obtain ⟨a', c, rest', heq, hperm, hc, hr⟩ :=
      second_largest_aux_spec xs x1 x2 [] (le_of_lt hlt) (by intro y hy; cases hy)
    have hmid : (xs ++ x1 :: x2 :: ([] : List ℚ)).Perm (x1 :: x2 :: xs) :=
      (@List.perm_middle ℚ x1 xs [x2]).trans (List.Perm.cons x1 e2)
    exact ⟨a', c, rest', h2.trans heq, hmid.symm.trans hperm, hc, hr⟩

lemma foldl_max_spec : ∀ (xs : List ℚ) (a : ℚ),
    (xs.foldl max a = a ∨ xs.foldl max a ∈ xs) ∧
    a ≤ xs.foldl max a ∧ ∀ y ∈ xs, y ≤ xs.foldl max a := by
  intro xs
  induction xs with
  | nil =>
      intro a
      exact ⟨Or.inl rfl, le_refl a, by intro y hy; cases hy⟩
  | cons x xs ih =>
      intro a
      obtain ⟨hmem, hle, hub⟩ := ih (max a x)
      have hfold : (x :: xs).foldl max a = xs.foldl max (max a x) := rfl
      refine ⟨?_, ?_, ?_⟩
      · rw [hfold]
        rcases hmem with h | h
        · rcases le_total a x with hax | hxa
          · rw [h, max_eq_right hax]
            exact Or.inr (List.mem_cons_self x xs)
          · rw [h, max_eq_left hxa]
            exact Or.inl rfl
        · exact Or.inr (List.mem_cons_of_mem x h)
      · rw [hfold]
        exact le_trans (le_max_left a x) hle
      · intro y hy
        rw [hfold]
        rcases List.mem_cons.mp hy with rfl | hy'
        · exact le_trans (le_max_right a y) hle
        · exact hub y hy'

lemma pymax_spec (x : ℚ) (xs : List ℚ) :
    ∃ m, pymax (x :: xs) = some m ∧ m ∈ x :: xs ∧ ∀ y ∈ x :: xs, y ≤ m := by
  obtain ⟨hmem, hle, hub⟩ := foldl_max_spec xs x
  refine ⟨xs.foldl max x, rfl, ?_, ?_⟩
  · rcases hmem with h | h
    · rw [h]
      exact List.mem_cons_self x xs
    · exact List.mem_cons_of_mem x h
  · intro y hy
    rcases List.mem_cons.mp hy with rfl | hy'
    · exact hle
    · exact hub y hy'

/-- C3 counterexample: on the frame `[-5, 1]` (entries of arbitrary
sign) the extractor returns `dominant_sq = 1`, `secondary_sq = 25`, so
`dominant_sq >= secondary_sq` fails. -/
theorem extractor_negative_entry_cex :
    extract_frame [-5, 1] = some (1, 25) ∧ ¬((25 : ℚ) ≤ 1) := by
  constructor
  · have hmax : pymax [-5, 1] = some 1 := by
      show some (List.foldl max (-5) [1]) = some 1
      norm_num
    have hsec : second_largest [-5, 1] = some (-5) := by
      show second_largest_aux [-5, 1] none none = some (-5)
      simp only [second_largest_aux]
      rw [if_pos (show optLE none (-5 : ℚ) from trivial),
        if_pos (show optLE (some (-5 : ℚ)) 1 by norm_num [optLE])]
    simp only [extract_frame]
    rw [hmax, hsec]
    norm_num
  · norm_num

/-- C3 amended: for every frame whose amplitude vector has at least 2
nonnegative entries, the extractor returns `dominant_sq` equal to the
square of the largest entry, `secondary_sq` equal to the square of the
second-largest entry, and `dominant_sq >= secondary_sq >= 0`.  (For
entries of arbitrary sign only the ordering clause fails, see the
counterexample.) -/
theorem extractor_ordered_nonneg (amps : List ℚ) (h2 : 2 ≤ amps.length)
    (hpos : ∀ x ∈ amps, 0 ≤ x) :
    ∃ d s m1 m2, extract_frame amps = some (d, s) ∧
      d = m1 * m1 ∧ s = m2 * m2 ∧ isLargest amps m1 ∧ isSecondLargest amps m2 ∧
      s ≤ d ∧ 0 ≤ s := by
  match amps, h2 with
  | x1 :: x2 :: xs, _ =>
    obtain ⟨M, hM, hMmem, hMub⟩ := pymax_spec x1 (x2 :: xs)
    obtain ⟨a', c, rest', heq, hperm, hca, hr⟩ := second_largest_spec x1 x2 xs
    have hext : extract_frame (x1 :: x2 :: xs) = some (M * M, c * c) := by
      simp only [extract_frame]
      rw [hM, heq]
    have hcmem : c ∈ x1 :: x2 :: xs := hperm.mem_iff.mpr (by simp)
    have hc0 : 0 ≤ c := hpos c hcmem
    have hcM : c ≤ M := hMub c hcmem
    exact ⟨M * M, c * c, M, c, hext, rfl, rfl, ⟨hMmem, hMub⟩,
      ⟨a', rest', hperm, hca, hr⟩, mul_self_le_mul_self hc0 hcM,
      mul_self_nonneg c⟩

/-- Witness for C3's amended statement at the frame `[3, 1, 2]`. -/
theorem extractor_ordered_nonneg_witness :
    ∃ d s m1 m2, extract_frame [3, 1, 2] = some (d, s) ∧
      d = m1 * m1 ∧ s = m2 * m2 ∧ isLargest [3, 1, 2] m1 ∧
      isSecondLargest [3, 1, 2] m2 ∧ s ≤ d ∧ 0 ≤ s :=
  extractor_ordered_nonneg [3, 1, 2] (by norm_num) (by norm_num)

lemma second_largest_short (f : List ℚ) (hf : f.length < 2) :
    second_largest f = none := by
  match f, hf with
  | [], _ => rfl
  | [x], _ => rfl

lemma extract_frame_short (f : List ℚ) (hf : f.length < 2) :
    extract_frame f = none := by
  match f, hf with
  | [], _ => rfl
  | [x], _ => rfl

lemma extract_samples_none (f : List ℚ) (hf : f.length < 2) :
    ∀ frames : List (List ℚ), f ∈ frames → extract_samples frames = none := by
  intro frames
  induction frames with
  | nil =>
      intro h
      cases h
  | cons g rest ih =>
      intro hmem
      simp only [extract_samples]
      rcases List.mem_cons.mp hmem with rfl | hmem'
      · rw [extract_frame_short _ hf]
      · rw [ih hmem']
        cases extract_frame g <;> rfl

/-- C5: a frame with fewer than two amplitudes leaves the second maximum
unset (`None`), squaring it fails rather than silently producing a
number, and the trajectory's extraction returns no partial pair of
sample sequences. -/
theorem insufficient_states_aborts (frames : List (List ℚ)) (f : List ℚ)
    (hmem : f ∈ frames) (hf : f.length < 2) :
    second_largest f = none ∧ extract_frame f = none ∧
    extract_samples frames = none :=
  ⟨second_largest_short f hf, extract_frame_short f hf,
   extract_samples_none f hf frames hmem⟩

/-- Witness for C5: a one-frame trajectory with the single-element
amplitude vector `[1]`. -/
theorem insufficient_states_aborts_witness :
    second_largest [1] = none ∧ extract_frame [1] = none ∧
    extract_samples [[1]] = none :=
  insufficient_states_aborts [[1]] [1] (by simp) (by simp)
